/-
  Verification of the leaflet-heatmap-layer redraw pipeline.

  Shallow embedding of `src/HeatLayer.ts` (projection, zoom attenuation,
  auto-max computation, grid clustering, blob emission) and
  `src/HeatRenderer.ts` (option updates, draw, colorize) over exact
  rational arithmetic.  The host map (Leaflet) is modelled as a record of
  the quantities the redraw reads from it: viewport size, zoom, max zoom,
  geographic bounds, the layer-point projection and the layer-space origin
  of the viewport.
-/
import Mathlib

/-- A heat data point: latitude, longitude and an optional intensity
(`[lat, lng]`, `[lat, lng, intensity]`, or an `L.LatLng` with optional
`alt`).  Embeds `HeatLatLng` from `src/HeatLayer.ts`. -/
structure HeatLatLng where
  lat : ℚ
  lng : ℚ
  alt : Option ℚ
deriving DecidableEq

/-- `HeatLayer._getIntensity`: the intensity of a point, defaulting to 1. -/
def getIntensity (p : HeatLatLng) : ℚ :=
  p.alt.getD 1

/-- `HeatLayer._toLatLng`: the bare geographic coordinate of a point. -/
def toLatLng (p : HeatLatLng) : ℚ × ℚ :=
  (p.lat, p.lng)

/-- A geographic bounds rectangle (Leaflet `LatLngBounds`). -/
structure LatLngBoundsV where
  south : ℚ
  west : ℚ
  north : ℚ
  east : ℚ
deriving DecidableEq

/-- Leaflet `LatLngBounds.contains` for a single coordinate. -/
def containsB (b : LatLngBoundsV) (ll : ℚ × ℚ) : Bool :=
  decide (b.south ≤ ll.1) && decide (ll.1 ≤ b.north) &&
    decide (b.west ≤ ll.2) && decide (ll.2 ≤ b.east)

/-- The host map state read by `_redraw`: viewport pixel size, current
zoom, the map's max zoom, visible geographic bounds, the
`latLngToLayerPoint` projection, and `containerPointToLayerPoint([0,0])`
(the layer-space origin of the viewport, `topLeft` in the source). -/
structure MapView where
  size : ℚ × ℚ
  zoom : ℤ
  maxZoom : ℤ
  bounds : LatLngBoundsV
  latLngToLayerPoint : ℚ × ℚ → ℚ × ℚ
  topLeft : ℚ × ℚ

/-- The configuration `_redraw` reads: the renderer's radius and blur and
the layer options `maxZoom` and `max` (both optional). -/
structure RenderCfg where
  radius : ℚ
  blur : ℚ
  maxZoom : Option ℤ
  max : Option ℚ
deriving DecidableEq

/-- The zoom attenuation factor
`v = 1 / Math.pow(2, Math.max(0, Math.min(maxZoom - zoom, 12)))`. -/
def zoomFactor (maxZoom zoom : ℤ) : ℚ :=
  1 / 2 ^ (max 0 (min (maxZoom - zoom) 12)).toNat

/-- The attenuation factor used by a redraw:
`maxZoom = this._options.maxZoom ?? map.getMaxZoom()`. -/
def vOf (view : MapView) (cfg : RenderCfg) : ℚ :=
  zoomFactor (cfg.maxZoom.getD view.maxZoom) view.zoom

/-- The epsilon `1e-10` flooring the automatic maximum. -/
def epsAuto : ℚ :=
  1 / 10000000000

/-- One step of the auto-max pass:
`if (scaled > autoMax) autoMax = scaled` with `scaled = intensity * v`. -/
def autoMaxStep (v acc : ℚ) (p : HeatLatLng) : ℚ :=
  let scaled := getIntensity p * v
  if acc < scaled then scaled else acc

/-- Pass 1 of `_redraw`: the automatic maximum over ALL points. -/
def autoMax (v : ℚ) (pts : List HeatLatLng) : ℚ :=
  pts.foldl (autoMaxStep v) 0

/-- `effectiveMax = this._options.max ?? Math.max(autoMax, 1e-10)`. -/
def effectiveMax (view : MapView) (cfg : RenderCfg) (pts : List HeatLatLng) : ℚ :=
  match cfg.max with
  | some m => m
  | none => max (autoMax (vOf view cfg) pts) epsAuto

/-- The visible bounds padded by the pixel equivalent of `radius + blur`
in each direction. -/
def paddedBounds (view : MapView) (cfg : RenderCfg) : LatLngBoundsV :=
  let r := cfg.radius + cfg.blur
  let padLat := r / view.size.2 * (view.bounds.north - view.bounds.south)
  let padLng := r / view.size.1 * (view.bounds.east - view.bounds.west)
  ⟨view.bounds.south - padLat, view.bounds.west - padLng,
    view.bounds.north + padLat, view.bounds.east + padLng⟩

/-- `cellSize = Math.max(1, Math.floor(renderer.radius / 2))`. -/
def cellSizeOf (cfg : RenderCfg) : ℤ :=
  max 1 ⌊cfg.radius / 2⌋

/-- Grid cell key of a point: its stable layer-point coordinates divided
by the cell size and floored (`gx`, `gy` in the source). -/
def cellKeyOf (view : MapView) (cfg : RenderCfg) (p : HeatLatLng) : ℤ × ℤ :=
  let lp := view.latLngToLayerPoint (toLatLng p)
  (⌊lp.1 / (cellSizeOf cfg : ℚ)⌋, ⌊lp.2 / (cellSizeOf cfg : ℚ)⌋)

/-- A grid cell's running sums `[sumX, sumY, sumIntensity, count]`. -/
structure Cell where
  sx : ℚ
  sy : ℚ
  si : ℚ
  cnt : ℕ
deriving DecidableEq

/-- Componentwise addition of cell sums. -/
def Cell.add (c d : Cell) : Cell :=
  ⟨c.sx + d.sx, c.sy + d.sy, c.si + d.si, c.cnt + d.cnt⟩

/-- The empty cell (a key not yet present in the grid). -/
def Cell.zero : Cell :=
  ⟨0, 0, 0, 0⟩

/-- The contribution `[x*intensity, y*intensity, intensity, 1]` of a point,
with `x`, `y` its canvas-local coordinates (`lp - topLeft`) and
`intensity` already attenuated by `v`. -/
def contribOf (view : MapView) (v : ℚ) (p : HeatLatLng) : Cell :=
  let lp := view.latLngToLayerPoint (toLatLng p)
  let x := lp.1 - view.topLeft.1
  let y := lp.2 - view.topLeft.2
  let i := getIntensity p * v
  ⟨x * i, y * i, i, 1⟩

/-- The grid built by pass 2: the cell sums as a total function (absent
keys map to `Cell.zero`) together with the keys in insertion order
(JavaScript object iteration order for string keys). -/
structure RedrawGrid where
  keys : List (ℤ × ℤ)
  cells : ℤ × ℤ → Cell

/-- One iteration of the pass-2 loop: skip points outside the padded
bounds, otherwise accumulate the point's contribution into its cell. -/
def redrawStep (view : MapView) (cfg : RenderCfg) (v : ℚ)
    (st : RedrawGrid) (p : HeatLatLng) : RedrawGrid :=
  if containsB (paddedBounds view cfg) (toLatLng p) then
    let k := cellKeyOf view cfg p
    { keys := if k ∈ st.keys then st.keys else st.keys ++ [k]
      cells := fun k' =>
        if k' = k then (st.cells k').add (contribOf view v p) else st.cells k' }
  else st

/-- Pass 2 of `_redraw`: fold all points into the grid. -/
def redrawGrid (view : MapView) (cfg : RenderCfg) (pts : List HeatLatLng) :
    RedrawGrid :=
  pts.foldl (redrawStep view cfg (vOf view cfg)) ⟨[], fun _ => Cell.zero⟩

/-- Emission of one grid cell: skipped when its intensity sum is zero,
otherwise the intensity-weighted centroid with normalized intensity. -/
def emitCell (cells : ℤ × ℤ → Cell) (effMax : ℚ) (k : ℤ × ℤ) :
    Option (ℚ × ℚ × ℚ) :=
  let c := cells k
  if c.si = 0 then none
  else some (c.sx / c.si, c.sy / c.si, c.si / effMax)

/-- The blob list handed to `renderer.draw`: every non-empty cell's
centroid and normalized intensity, in grid key insertion order. -/
def redrawBlobs (view : MapView) (cfg : RenderCfg) (pts : List HeatLatLng) :
    List (ℚ × ℚ × ℚ) :=
  (redrawGrid view cfg pts).keys.filterMap
    (emitCell (redrawGrid view cfg pts).cells (effectiveMax view cfg pts))

/-- `_redraw` with its zero-size viewport guard: `none` means the redraw
aborted without drawing. -/
def redraw (view : MapView) (cfg : RenderCfg) (pts : List HeatLatLng) :
    Option (List (ℚ × ℚ × ℚ)) :=
  if view.size.1 = 0 ∨ view.size.2 = 0 then none
  else some (redrawBlobs view cfg pts)

/-- Specification-side characterization of a cell's running sums: the sum
of the contributions of exactly the points inside the padded bounds whose
grid key is that cell (spec §4.1 step 5).  Compared against the fold-built
grid in the refinement theorem for C3. -/
def specCellSum (view : MapView) (cfg : RenderCfg) (pts : List HeatLatLng)
    (k : ℤ × ℤ) : Cell :=
  ((pts.filter (fun p =>
      containsB (paddedBounds view cfg) (toLatLng p) &&
        decide (cellKeyOf view cfg p = k))).map
    (contribOf view (vOf view cfg))).foldr Cell.add Cell.zero

/- ---------------------------------------------------------------------
   HeatRenderer (`src/HeatRenderer.ts`)
   --------------------------------------------------------------------- -/

/-- A gradient: color stops keyed by position. -/
abbrev Gradient : Type :=
  List (ℚ × String)

/-- The mutable state of a `HeatRenderer`: style options plus the two
lazily-built caches (`_circle`, `_palette`), modelled by their presence. -/
structure HeatRendererState where
  radius : ℚ
  blur : ℚ
  minOpacity : ℚ
  gradient : Gradient
  circleCache : Bool
  paletteCache : Bool
deriving DecidableEq

/-- An update record for `HeatRenderer.setOptions`: absent keys are
`none`. -/
structure HeatRendererOptionsU where
  radius : Option ℚ
  blur : Option ℚ
  minOpacity : Option ℚ
  gradient : Option Gradient

/-- `HeatRenderer.setOptions`: radius/blur update invalidates the circle
cache, a gradient update invalidates the palette cache, minOpacity
updates in place. -/
def rendererSetOptions (st : HeatRendererState) (o : HeatRendererOptionsU) :
    HeatRendererState :=
  let st1 :=
    if o.radius.isSome || o.blur.isSome then
      { st with
        radius := o.radius.getD st.radius
        blur := o.blur.getD st.blur
        circleCache := false }
    else st
  let st2 :=
    if o.gradient.isSome then
      { st1 with gradient := o.gradient.getD st1.gradient, paletteCache := false }
    else st1
  if o.minOpacity.isSome then
    { st2 with minOpacity := o.minOpacity.getD st2.minOpacity }
  else st2

/-- Observable behaviour of `HeatRenderer.draw`: whether the raster was
cleared, which stamps were composited (top-left offset and global alpha),
and whether the colorize pass ran. -/
structure DrawTrace where
  cleared : Bool
  stamps : List (ℚ × ℚ × ℚ)
  colorized : Bool
deriving DecidableEq

/-- `HeatRenderer.draw`: an empty blob list just clears the raster;
otherwise clear, stamp each blob at `(x - fullRadius, y - fullRadius)`
with alpha `max(intensity, minOpacity)`, then colorize. -/
def draw (st : HeatRendererState) (points : List (ℚ × ℚ × ℚ)) : DrawTrace :=
  if points.isEmpty then ⟨true, [], false⟩
  else
    let fullRadius := st.radius + st.blur
    ⟨true,
      points.map (fun q =>
        (q.1 - fullRadius, q.2.1 - fullRadius, max q.2.2 st.minOpacity)),
      true⟩

/-- `HeatRenderer._colorize` on the flat RGBA pixel buffer: for each
4-byte pixel, a zero alpha is skipped; otherwise the red/green/blue bytes
are overwritten with the palette entry indexed by the alpha byte and the
alpha byte is kept. -/
def colorize (palette : ℕ → ℕ × ℕ × ℕ) : List ℕ → List ℕ
  | r :: g :: b :: a :: rest =>
    if a = 0 then r :: g :: b :: a :: colorize palette rest
    else (palette a).1 :: (palette a).2.1 :: (palette a).2.2 :: a ::
      colorize palette rest
  | rest => rest

/- ---------------------------------------------------------------------
   HeatLayer options and bounds (`src/HeatLayer.ts`)
   --------------------------------------------------------------------- -/

/-- `HeatLayerOptions` with every field optional; an absent key is
`none`.  Also the shape of a `setOptions` update record. -/
structure HeatLayerOptionsO where
  radius : Option ℚ
  blur : Option ℚ
  minOpacity : Option ℚ
  maxZoom : Option ℤ
  max : Option ℚ
  gradient : Option Gradient
  zoomCrossfadeDuration : Option ℚ
deriving DecidableEq

/-- One field of `Object.assign`: a key present in the update overwrites,
an absent key keeps the prior value. -/
def assignField {α : Type} (upd old : Option α) : Option α :=
  match upd with
  | some v => some v
  | none => old

/-- `Object.assign(this._options, options)` fieldwise. -/
def mergeOptions (old upd : HeatLayerOptionsO) : HeatLayerOptionsO :=
  ⟨assignField upd.radius old.radius, assignField upd.blur old.blur,
    assignField upd.minOpacity old.minOpacity,
    assignField upd.maxZoom old.maxZoom, assignField upd.max old.max,
    assignField upd.gradient old.gradient,
    assignField upd.zoomCrossfadeDuration old.zoomCrossfadeDuration⟩

/-- The layer state touched by `HeatLayer.setOptions`: the option record
and the renderer. -/
structure HeatLayerState where
  options : HeatLayerOptionsO
  renderer : HeatRendererState

/-- `HeatLayer.setOptions`: merge the update into the options, then
propagate radius/blur/minOpacity/gradient to the renderer. -/
def setOptions (st : HeatLayerState) (upd : HeatLayerOptionsO) :
    HeatLayerState :=
  let o := mergeOptions st.options upd
  { options := o
    renderer := rendererSetOptions st.renderer
      ⟨o.radius, o.blur, o.minOpacity, o.gradient⟩ }

/-- The Leaflet collaborator `L.latLngBounds` applied to a point list
(spec §6 host interface): folds `extend` over the points; an empty list
yields no valid bounds (`isValid()` is false), modelled as `none`. -/
def latLngBoundsOf (pts : List (ℚ × ℚ)) : Option LatLngBoundsV :=
  pts.foldl
    (fun acc ll =>
      match acc with
      | none => some ⟨ll.1, ll.2, ll.1, ll.2⟩
      | some b =>
        some ⟨min b.south ll.1, min b.west ll.2,
          max b.north ll.1, max b.east ll.2⟩)
    none

/-- `HeatLayer.getBounds`: a bounds covering all data points. -/
def getBounds (pts : List HeatLatLng) : Option LatLngBoundsV :=
  latLngBoundsOf (pts.map toLatLng)

/- ---------------------------------------------------------------------
   Helper lemmas
   --------------------------------------------------------------------- -/

theorem Cell.add_zero_right (c : Cell) : c.add Cell.zero = c := by
  cases c; simp [Cell.add, Cell.zero]

theorem Cell.add_assoc (a b c : Cell) :
    (a.add b).add c = a.add (b.add c) := by
  cases a; cases b; cases c
  simp only [Cell.add, Cell.mk.injEq]
  exact ⟨Rat.add_assoc .., Rat.add_assoc .., Rat.add_assoc .., Nat.add_assoc ..⟩

theorem autoMaxStep_eq_max (v acc : ℚ) (p : HeatLatLng) :
    autoMaxStep v acc p = max acc (getIntensity p * v) := by
  unfold autoMaxStep
  rcases lt_or_le acc (getIntensity p * v) with h | h
  · rw [if_pos h, max_eq_right h.le]
  · rw [if_neg (not_lt.mpr h), max_eq_left h]

theorem autoMax_fold_le (v : ℚ) (pts : List HeatLatLng) :
    ∀ acc : ℚ, acc ≤ pts.foldl (autoMaxStep v) acc := by
  induction pts with
  | nil => intro acc; simp
  | cons p ps ih =>
    intro acc
    refine le_trans ?_ (ih (autoMaxStep v acc p))
    rw [autoMaxStep_eq_max]; exact le_max_left _ _

theorem autoMax_fold_mem (v : ℚ) (pts : List HeatLatLng) :
    ∀ acc : ℚ, ∀ p ∈ pts, getIntensity p * v ≤ pts.foldl (autoMaxStep v) acc := by
  induction pts with
  | nil => intro acc p hp; cases hp
  | cons q ps ih =>
    intro acc p hp
    rcases List.mem_cons.mp hp with rfl | hp
    · refine le_trans ?_ (autoMax_fold_le v ps (autoMaxStep v acc p))
      rw [autoMaxStep_eq_max]; exact le_max_right _ _
    · exact ih (autoMaxStep v acc q) p hp

theorem autoMax_fold_cases (v : ℚ) (pts : List HeatLatLng) :
    ∀ acc : ℚ, pts.foldl (autoMaxStep v) acc = acc ∨
      ∃ p ∈ pts, pts.foldl (autoMaxStep v) acc = getIntensity p * v := by
  induction pts with
  | nil => intro acc; exact .inl rfl
  | cons q ps ih =>
    intro acc
    rcases ih (autoMaxStep v acc q) with h | ⟨p, hp, h⟩
    · rw [List.foldl_cons, h]
      unfold autoMaxStep
      rcases lt_or_le acc (getIntensity q * v) with hlt | hle
      · exact .inr ⟨q, List.mem_cons_self .., by rw [if_pos hlt]⟩
      · exact .inl (by rw [if_neg (not_lt.mpr hle)])
    · exact .inr ⟨p, List.mem_cons_of_mem q hp, by rw [List.foldl_cons, h]⟩

theorem epsAuto_pos : (0 : ℚ) < epsAuto := by
  norm_num [epsAuto]

/- ---------------------------------------------------------------------
   Concrete fixtures used by the witnesses and counterexamples
   --------------------------------------------------------------------- -/

/-- A fully laid-out viewport: 100×100 px at zoom 18 (also the map's max
zoom), showing latitudes/longitudes −50..50, with an equirectangular
layer projection and the viewport origin at the layer origin. -/
def view0 : MapView :=
  ⟨(100, 100), 18, 18, ⟨-50, -50, 50, 50⟩, fun ll => (ll.2, ll.1), (0, 0)⟩

/-- Default options: radius 25, blur 15, no maxZoom override, no cap. -/
def cfg0 : RenderCfg :=
  ⟨25, 15, none, none⟩

/-- One default-intensity point at the origin. -/
def pts0 : List HeatLatLng :=
  [⟨0, 0, none⟩]

/-- Two default-intensity points at the origin: they land in the same
grid cell, so their attenuated intensities add up in that cell. -/
def pts2 : List HeatLatLng :=
  [⟨0, 0, none⟩, ⟨0, 0, none⟩]

/-- Two points in different grid cells (origin and latitude 40). -/
def ptsTwoCells : List HeatLatLng :=
  [⟨0, 0, none⟩, ⟨40, 0, some 2⟩]

/- ---------------------------------------------------------------------
   C4: zoom attenuation factor
   --------------------------------------------------------------------- -/

/-- C4: on every redraw the zoom attenuation factor equals
`2^(-clamp(maxZoomForFullIntensity - currentZoom, 0, 12))`; it is `1`
when the current zoom is at or above the configured max zoom, it halves
per zoom level below that (within the clamp range), and it never drops
below `2^-12`. -/
theorem zoomFactor_spec (maxZoom zoom : ℤ) :
    zoomFactor maxZoom zoom = (2 : ℚ) ^ (-(max 0 (min (maxZoom - zoom) 12))) ∧
    (maxZoom ≤ zoom → zoomFactor maxZoom zoom = 1) ∧
    (0 ≤ maxZoom - zoom → maxZoom - zoom ≤ 11 →
      zoomFactor maxZoom (zoom - 1) = zoomFactor maxZoom zoom / 2) ∧
    (2 : ℚ) ^ (-12 : ℤ) ≤ zoomFactor maxZoom zoom := by
  have hc0 : (0 : ℤ) ≤ max 0 (min (maxZoom - zoom) 12) := le_max_left _ _
  refine ⟨?_, ?_, ?_, ?_⟩
  · rw [zoomFactor, zpow_neg, ← zpow_natCast, Int.toNat_of_nonneg hc0, one_div]
  · intro h
    have h0 : (max 0 (min (maxZoom - zoom) 12)).toNat = 0 := by omega
    rw [zoomFactor, h0, pow_zero, one_div_one]
  · intro h0 h11
    have h1 : (max 0 (min (maxZoom - (zoom - 1)) 12)).toNat =
        (max 0 (min (maxZoom - zoom) 12)).toNat + 1 := by omega
    rw [zoomFactor, zoomFactor, h1, pow_succ]
    ring
  · have h12 : (max 0 (min (maxZoom - zoom) 12)).toNat ≤ 12 := by omega
    have hle : (2 : ℚ) ^ (max 0 (min (maxZoom - zoom) 12)).toNat ≤ 2 ^ 12 := by
      exact pow_le_pow_right₀ (by norm_num) h12
    have h2 : (2 : ℚ) ^ (-12 : ℤ) = 1 / 2 ^ 12 := by norm_num
    rw [zoomFactor, h2]
    exact one_div_le_one_div_of_le (by positivity) hle

/-- Witness for C4 at `maxZoom = 18`: `v = 1` at zoom 18 and `v = 1/4`
at zoom 16. -/
theorem zoomFactor_spec_witness :
    zoomFactor 18 18 = 1 ∧ zoomFactor 18 16 = 1 / 4 :=
  ⟨(zoomFactor_spec 18 18).2.1 (by decide),
    by norm_num [zoomFactor, Int.toNat]⟩

/- ---------------------------------------------------------------------
   C1: effectiveMax in automatic mode
   --------------------------------------------------------------------- -/

/-- C1: with no manual cap, `effectiveMax` is the maximum of
`intensity * v` over ALL points floored at the epsilon `1e-10`: it bounds
every point's attenuated intensity, it is either the epsilon or attained
by some point, it is at least the epsilon, and it is unchanged by any
viewport change that keeps the zoom (and the map's max zoom) fixed. -/
theorem effectiveMax_auto_spec (view : MapView) (cfg : RenderCfg)
    (pts : List HeatLatLng) (h : cfg.max = none) :
    (∀ p ∈ pts, getIntensity p * vOf view cfg ≤ effectiveMax view cfg pts) ∧
    (effectiveMax view cfg pts = epsAuto ∨
      ∃ p ∈ pts, effectiveMax view cfg pts = getIntensity p * vOf view cfg) ∧
    epsAuto ≤ effectiveMax view cfg pts ∧
    (∀ view' : MapView, view'.zoom = view.zoom →
      view'.maxZoom = view.maxZoom →
      effectiveMax view' cfg pts = effectiveMax view cfg pts) := by
  have heff : effectiveMax view cfg pts =
      max (autoMax (vOf view cfg) pts) epsAuto := by
    rw [effectiveMax, h]
  refine ⟨?_, ?_, ?_, ?_⟩
  · intro p hp
    rw [heff]
    exact le_trans (autoMax_fold_mem (vOf view cfg) pts 0 p hp) (le_max_left _ _)
  · rw [heff]
    rcases autoMax_fold_cases (vOf view cfg) pts 0 with h0 | ⟨p, hp, hpa⟩
    · left
      rw [autoMax, h0, max_eq_right epsAuto_pos.le]
    · rcases le_total (autoMax (vOf view cfg) pts) epsAuto with hle | hge
      · left; exact max_eq_right hle
      · right
        exact ⟨p, hp, by rw [max_eq_left hge, autoMax, hpa]⟩
  · rw [heff]; exact le_max_right _ _
  · intro view' hz hmz
    have hv : vOf view' cfg = vOf view cfg := by
      rw [vOf, vOf, hz, hmz]
    rw [effectiveMax, effectiveMax, h, hv]

/-- Witness for C1: the single default-intensity point of `pts0` at full
zoom gives `effectiveMax = 1`, which bounds the point and is attained. -/
theorem effectiveMax_auto_spec_witness :
    cfg0.max = none ∧ effectiveMax view0 cfg0 pts0 = 1 ∧
      epsAuto ≤ effectiveMax view0 cfg0 pts0 :=
  ⟨rfl,
    by norm_num [effectiveMax, autoMax, autoMaxStep, vOf, zoomFactor, cfg0,
      view0, pts0, getIntensity, epsAuto],
    (effectiveMax_auto_spec view0 cfg0 pts0 rfl).2.2.1⟩

/- ---------------------------------------------------------------------
   Grid fold lemmas
   --------------------------------------------------------------------- -/

theorem Cell.zero_add_left (c : Cell) : Cell.zero.add c = c := by
  cases c; simp [Cell.add, Cell.zero]

theorem redrawFold_cells (view : MapView) (cfg : RenderCfg) (v : ℚ)
    (pts : List HeatLatLng) :
    ∀ (st : RedrawGrid) (k : ℤ × ℤ),
      (pts.foldl (redrawStep view cfg v) st).cells k =
        (st.cells k).add
          (((pts.filter (fun p =>
              containsB (paddedBounds view cfg) (toLatLng p) &&
                decide (cellKeyOf view cfg p = k))).map
            (contribOf view v)).foldr Cell.add Cell.zero) := by
  induction pts with
  | nil => intro st k; simp [Cell.add_zero_right]
  | cons p ps ih =>
    intro st k
    rw [List.foldl_cons, ih (redrawStep view cfg v st p) k]
    by_cases hin : containsB (paddedBounds view cfg) (toLatLng p) = true
    · by_cases hk : cellKeyOf view cfg p = k
      · rw [List.filter_cons_of_pos (by simp [hin, hk]), List.map_cons,
          List.foldr_cons]
        simp only [redrawStep, hin, if_true]
        rw [if_pos hk.symm, Cell.add_assoc]
      · rw [List.filter_cons_of_neg (by simp [hin, hk])]
        simp only [redrawStep, hin, if_true]
        rw [if_neg (fun h => hk h.symm)]
    · rw [List.filter_cons_of_neg (by simp [hin]),
        redrawStep, if_neg (by simp [hin])]

theorem redrawFold_keys_mem (view : MapView) (cfg : RenderCfg) (v : ℚ)
    (pts : List HeatLatLng) :
    ∀ (st : RedrawGrid) (k : ℤ × ℤ),
      (k ∈ (pts.foldl (redrawStep view cfg v) st).keys ↔
        k ∈ st.keys ∨ ∃ p ∈ pts,
          containsB (paddedBounds view cfg) (toLatLng p) = true ∧
            cellKeyOf view cfg p = k) := by
  induction pts with
  | nil => intro st k; simp
  | cons p ps ih =>
    intro st k
    rw [List.foldl_cons, ih (redrawStep view cfg v st p) k]
    by_cases hin : containsB (paddedBounds view cfg) (toLatLng p) = true
    · simp only [redrawStep, hin, if_true]
      by_cases hmem : cellKeyOf view cfg p ∈ st.keys
      · rw [if_pos hmem]
        constructor
        · rintro (h | h)
          · exact .inl h
          · exact .inr (by obtain ⟨q, hq, hc⟩ := h; exact ⟨q, .tail _ hq, hc⟩)
        · rintro (h | ⟨q, hq, hc, hck⟩)
          · exact .inl h
          · rcases List.mem_cons.mp hq with rfl | hq
            · exact .inl (hck ▸ hmem)
            · exact .inr ⟨q, hq, hc, hck⟩
      · rw [if_neg hmem]
        simp only [List.mem_append, List.mem_singleton]
        constructor
        · rintro ((h | rfl) | h)
          · exact .inl h
          · exact .inr ⟨p, List.mem_cons_self .., hin, rfl⟩
          · exact .inr (by obtain ⟨q, hq, hc⟩ := h; exact ⟨q, .tail _ hq, hc⟩)
        · rintro (h | ⟨q, hq, hc, hck⟩)
          · exact .inl (.inl h)
          · rcases List.mem_cons.mp hq with rfl | hq
            · exact .inl (.inr hck.symm)
            · exact .inr ⟨q, hq, hc, hck⟩
    · rw [redrawStep, if_neg (by simp [hin])]
      constructor
      · rintro (h | h)
        · exact .inl h
        · exact .inr (by obtain ⟨q, hq, hc⟩ := h; exact ⟨q, .tail _ hq, hc⟩)
      · rintro (h | ⟨q, hq, hc, hck⟩)
        · exact .inl h
        · rcases List.mem_cons.mp hq with rfl | hq
          · exact absurd hc hin
          · exact .inr ⟨q, hq, hc, hck⟩

theorem redrawFold_keys_nodup (view : MapView) (cfg : RenderCfg) (v : ℚ)
    (pts : List HeatLatLng) :
    ∀ st : RedrawGrid, st.keys.Nodup →
      (pts.foldl (redrawStep view cfg v) st).keys.Nodup := by
  induction pts with
  | nil => intro st h; exact h
  | cons p ps ih =>
    intro st h
    rw [List.foldl_cons]
    refine ih _ ?_
    by_cases hin : containsB (paddedBounds view cfg) (toLatLng p) = true
    · simp only [redrawStep, hin, if_true]
      by_cases hmem : cellKeyOf view cfg p ∈ st.keys
      · rw [if_pos hmem]; exact h
      · rw [if_neg hmem]
        simp only [List.nodup_append, List.nodup_cons, List.nodup_nil]
        exact ⟨h, ⟨by simp, trivial⟩, by simpa using hmem⟩
    · rw [redrawStep, if_neg (by simp [hin])]; exact h

/- ---------------------------------------------------------------------
   C3: grid clustering and blob emission refine the spec
   --------------------------------------------------------------------- -/

/-- C3: the grid built by a redraw accumulates, for every cell, exactly
the contributions `(x·i, y·i, i, 1)` of the points inside the padded
bounds whose floored stable-coordinate key is that cell; the keys are
exactly the cells hit by such a point; and the emitted blobs are, per
non-empty cell, the intensity-weighted centroid with intensity normalized
by `effectiveMax`. -/
theorem redraw_grid_blobs_spec (view : MapView) (cfg : RenderCfg)
    (pts : List HeatLatLng) :
    (∀ k, (redrawGrid view cfg pts).cells k = specCellSum view cfg pts k) ∧
    (∀ k, k ∈ (redrawGrid view cfg pts).keys ↔
      ∃ p ∈ pts, containsB (paddedBounds view cfg) (toLatLng p) = true ∧
        cellKeyOf view cfg p = k) ∧
    redrawBlobs view cfg pts =
      (redrawGrid view cfg pts).keys.filterMap (fun k =>
        if (specCellSum view cfg pts k).si = 0 then none
        else some
          ((specCellSum view cfg pts k).sx / (specCellSum view cfg pts k).si,
            (specCellSum view cfg pts k).sy / (specCellSum view cfg pts k).si,
            (specCellSum view cfg pts k).si / effectiveMax view cfg pts)) := by
  have hc : ∀ k, (redrawGrid view cfg pts).cells k = specCellSum view cfg pts k := by
    intro k
    rw [redrawGrid, redrawFold_cells, specCellSum]
    exact Cell.zero_add_left _
  refine ⟨hc, ?_, ?_⟩
  · intro k
    rw [redrawGrid, redrawFold_keys_mem]
    simp
  · rw [redrawBlobs]
    refine List.filterMap_congr (fun k _ => ?_)
    simp only [emitCell, hc k]

/- ---------------------------------------------------------------------
   Concrete evaluations shared by witnesses
   --------------------------------------------------------------------- -/

theorem eval_blobs_pts0 : redrawBlobs view0 cfg0 pts0 = [(0, 0, 1)] := by
  norm_num [redrawBlobs, redrawGrid, redrawStep, pts0, effectiveMax, autoMax,
    autoMaxStep, vOf, zoomFactor, cfg0, view0, containsB, paddedBounds,
    cellKeyOf, cellSizeOf, toLatLng, getIntensity, contribOf, emitCell,
    Cell.add, Cell.zero, epsAuto, List.filterMap_cons]

theorem eval_blobs_pts2 : redrawBlobs view0 cfg0 pts2 = [(0, 0, 2)] := by
  norm_num [redrawBlobs, redrawGrid, redrawStep, pts2, effectiveMax, autoMax,
    autoMaxStep, vOf, zoomFactor, cfg0, view0, containsB, paddedBounds,
    cellKeyOf, cellSizeOf, toLatLng, getIntensity, contribOf, emitCell,
    Cell.add, Cell.zero, epsAuto, List.filterMap_cons]

theorem eval_keys_pts0 : (redrawGrid view0 cfg0 pts0).keys = [(0, 0)] := by
  norm_num [redrawGrid, redrawStep, pts0, vOf, zoomFactor, cfg0, view0,
    containsB, paddedBounds, cellKeyOf, cellSizeOf, toLatLng]

theorem eval_effMax_pts0 : effectiveMax view0 cfg0 pts0 = 1 := by
  norm_num [effectiveMax, autoMax, autoMaxStep, vOf, zoomFactor, cfg0, view0,
    pts0, getIntensity, epsAuto]

theorem eval_effMax_pts2 : effectiveMax view0 cfg0 pts2 = 1 := by
  norm_num [effectiveMax, autoMax, autoMaxStep, vOf, zoomFactor, cfg0, view0,
    pts2, getIntensity, epsAuto]

/- ---------------------------------------------------------------------
   C2: normalized blob intensity vs. 1
   --------------------------------------------------------------------- -/

/-- C2 counterexample: two unit-intensity points in the same grid cell.
No point's attenuated intensity exceeds `effectiveMax = 1` (automatic
mode), yet the emitted blob's normalized intensity is `2 > 1`, because
the cell sums both points' intensities. -/
theorem redraw_blob_le_one_cex :
    cfg0.max = none ∧
    (∀ p ∈ pts2, getIntensity p * vOf view0 cfg0 ≤ effectiveMax view0 cfg0 pts2) ∧
    ∃ b ∈ redrawBlobs view0 cfg0 pts2, 1 < b.2.2 := by
  refine ⟨rfl, ?_, ?_⟩
  · intro p hp
    rw [eval_effMax_pts2]
    rcases List.mem_cons.mp hp with rfl | hp
    · norm_num [getIntensity, vOf, zoomFactor, cfg0, view0]
    · rcases List.mem_cons.mp hp with rfl | hp
      · norm_num [getIntensity, vOf, zoomFactor, cfg0, view0]
      · cases hp
  · exact ⟨(0, 0, 2), by rw [eval_blobs_pts2]; simp, by norm_num⟩

/-- C2 amended: every blob emitted by a redraw has normalized intensity
`≤ 1` whenever no grid CELL's accumulated attenuated intensity exceeds
the (positive) `effectiveMax`; the per-point bound of the original claim
suffices only when no two points share a cell. -/
theorem redraw_blob_le_one_amended (view : MapView) (cfg : RenderCfg)
    (pts : List HeatLatLng)
    (hpos : 0 < effectiveMax view cfg pts)
    (hcell : ∀ k ∈ (redrawGrid view cfg pts).keys,
      ((redrawGrid view cfg pts).cells k).si ≤ effectiveMax view cfg pts) :
    ∀ b ∈ redrawBlobs view cfg pts, b.2.2 ≤ 1 := by
  intro b hb
  rw [redrawBlobs] at hb
  obtain ⟨k, hk, he⟩ := List.mem_filterMap.mp hb
  by_cases h0 : ((redrawGrid view cfg pts).cells k).si = 0
  · simp only [emitCell] at he; rw [if_pos h0] at he; cases he
  · simp only [emitCell] at he; rw [if_neg h0] at he
    rw [← Option.some_inj.mp he]
    exact (div_le_one hpos).mpr (hcell k hk)

/-- Witness for the amended C2: a single point gives a blob of normalized
intensity exactly 1, and the hypotheses hold concretely. -/
theorem redraw_blob_le_one_amended_witness :
    0 < effectiveMax view0 cfg0 pts0 ∧
    (∀ k ∈ (redrawGrid view0 cfg0 pts0).keys,
      ((redrawGrid view0 cfg0 pts0).cells k).si ≤ effectiveMax view0 cfg0 pts0) ∧
    ∀ b ∈ redrawBlobs view0 cfg0 pts0, b.2.2 ≤ 1 := by
  have h1 : 0 < effectiveMax view0 cfg0 pts0 := by
    rw [eval_effMax_pts0]; norm_num
  have h2 : ∀ k ∈ (redrawGrid view0 cfg0 pts0).keys,
      ((redrawGrid view0 cfg0 pts0).cells k).si ≤ effectiveMax view0 cfg0 pts0 := by
    intro k hk
    rw [eval_keys_pts0] at hk
    rw [List.mem_singleton.mp hk, eval_effMax_pts0]
    norm_num [redrawGrid, redrawStep, pts0, vOf, zoomFactor, cfg0, view0,
      containsB, paddedBounds, cellKeyOf, cellSizeOf, toLatLng, getIntensity,
      contribOf, Cell.add, Cell.zero]
  exact ⟨h1, h2, redraw_blob_le_one_amended view0 cfg0 pts0 h1 h2⟩

/- ---------------------------------------------------------------------
   C10: zero-intensity cells are skipped
   --------------------------------------------------------------------- -/

/-- C10: a grid cell whose accumulated intensity sum is zero emits no
blob, and every emitted blob comes from a key whose cell has nonzero
intensity sum — so the centroid division never divides by zero. -/
theorem redraw_skips_zero_cells (view : MapView) (cfg : RenderCfg)
    (pts : List HeatLatLng) :
    (∀ k, ((redrawGrid view cfg pts).cells k).si = 0 →
      emitCell (redrawGrid view cfg pts).cells (effectiveMax view cfg pts) k =
        none) ∧
    ∀ b ∈ redrawBlobs view cfg pts,
      ∃ k ∈ (redrawGrid view cfg pts).keys,
        ((redrawGrid view cfg pts).cells k).si ≠ 0 ∧
          b = (((redrawGrid view cfg pts).cells k).sx /
              ((redrawGrid view cfg pts).cells k).si,
            ((redrawGrid view cfg pts).cells k).sy /
              ((redrawGrid view cfg pts).cells k).si,
            ((redrawGrid view cfg pts).cells k).si /
              effectiveMax view cfg pts) := by
  constructor
  · intro k h
    simp only [emitCell]
    rw [if_pos h]
  · intro b hb
    rw [redrawBlobs] at hb
    obtain ⟨k, hk, he⟩ := List.mem_filterMap.mp hb
    by_cases h0 : ((redrawGrid view cfg pts).cells k).si = 0
    · simp only [emitCell] at he; rw [if_pos h0] at he; cases he
    · refine ⟨k, hk, h0, ?_⟩
      simp only [emitCell] at he; rw [if_neg h0] at he
      exact (Option.some_inj.mp he).symm

/-- Witness for C10: the single blob of `pts0` comes from a cell with
nonzero intensity sum. -/
theorem redraw_skips_zero_cells_witness :
    ((0 : ℚ), (0 : ℚ), (1 : ℚ)) ∈ redrawBlobs view0 cfg0 pts0 ∧
    ∃ k ∈ (redrawGrid view0 cfg0 pts0).keys,
      ((redrawGrid view0 cfg0 pts0).cells k).si ≠ 0 ∧
        ((0 : ℚ), (0 : ℚ), (1 : ℚ)) =
          (((redrawGrid view0 cfg0 pts0).cells k).sx /
              ((redrawGrid view0 cfg0 pts0).cells k).si,
            ((redrawGrid view0 cfg0 pts0).cells k).sy /
              ((redrawGrid view0 cfg0 pts0).cells k).si,
            ((redrawGrid view0 cfg0 pts0).cells k).si /
              effectiveMax view0 cfg0 pts0) := by
  have hmem : ((0 : ℚ), (0 : ℚ), (1 : ℚ)) ∈ redrawBlobs view0 cfg0 pts0 := by
    rw [eval_blobs_pts0]; simp
  exact ⟨hmem, (redraw_skips_zero_cells view0 cfg0 pts0).2 _ hmem⟩

/- ---------------------------------------------------------------------
   C6: point order is irrelevant
   --------------------------------------------------------------------- -/

theorem Cell.add_left_comm (a b c : Cell) :
    a.add (b.add c) = b.add (a.add c) := by
  cases a; cases b; cases c
  simp only [Cell.add, Cell.mk.injEq]
  refine ⟨by ring, by ring, by ring, by omega⟩

theorem autoMax_perm (v : ℚ) {pts₁ pts₂ : List HeatLatLng}
    (h : pts₁.Perm pts₂) : autoMax v pts₁ = autoMax v pts₂ := by
  have hf : autoMaxStep v = fun acc p => max acc (getIntensity p * v) :=
    funext fun acc => funext fun p => autoMaxStep_eq_max v acc p
  rw [autoMax, autoMax, hf]
  exact h.foldl_eq'
    (fun x _ y _ z => by rw [max_assoc, max_comm (getIntensity x * v), ← max_assoc]) 0

theorem effectiveMax_perm (view : MapView) (cfg : RenderCfg)
    {pts₁ pts₂ : List HeatLatLng} (h : pts₁.Perm pts₂) :
    effectiveMax view cfg pts₁ = effectiveMax view cfg pts₂ := by
  rw [effectiveMax, effectiveMax]
  cases cfg.max with
  | some m => rfl
  | none => rw [autoMax_perm (vOf view cfg) h]

theorem redrawGrid_cells_perm (view : MapView) (cfg : RenderCfg)
    {pts₁ pts₂ : List HeatLatLng} (h : pts₁.Perm pts₂) (k : ℤ × ℤ) :
    (redrawGrid view cfg pts₁).cells k = (redrawGrid view cfg pts₂).cells k := by
  rw [redrawGrid, redrawGrid, redrawFold_cells, redrawFold_cells]
  congr 1
  haveI : LeftCommutative Cell.add := ⟨Cell.add_left_comm⟩
  exact ((h.filter _).map (contribOf view (vOf view cfg))).foldr_eq Cell.zero

theorem redrawGrid_keys_perm (view : MapView) (cfg : RenderCfg)
    {pts₁ pts₂ : List HeatLatLng} (h : pts₁.Perm pts₂) :
    (redrawGrid view cfg pts₁).keys.Perm (redrawGrid view cfg pts₂).keys := by
  refine (List.perm_ext_iff_of_nodup ?_ ?_).2 ?_
  · exact redrawFold_keys_nodup view cfg _ pts₁ _ List.nodup_nil
  · exact redrawFold_keys_nodup view cfg _ pts₂ _ List.nodup_nil
  · intro k
    rw [redrawGrid, redrawGrid, redrawFold_keys_mem, redrawFold_keys_mem]
    simp only [List.not_mem_nil, false_or]
    constructor
    · rintro ⟨p, hp, hc⟩; exact ⟨p, h.mem_iff.mp hp, hc⟩
    · rintro ⟨p, hp, hc⟩; exact ⟨p, h.mem_iff.mpr hp, hc⟩

/-- C6: the order of the points is irrelevant to the redraw output — for
every permutation of the point set, a redraw with the same options and
viewport produces the same blobs (the blob lists are permutations of one
another, i.e. equal as multisets, hence the painted raster is the same). -/
theorem redraw_order_irrelevant (view : MapView) (cfg : RenderCfg)
    (pts₁ pts₂ : List HeatLatLng) (h : pts₁.Perm pts₂) :
    (redrawBlobs view cfg pts₁).Perm (redrawBlobs view cfg pts₂) := by
  rw [redrawBlobs, redrawBlobs]
  have hemit : emitCell (redrawGrid view cfg pts₁).cells
      (effectiveMax view cfg pts₁) =
      emitCell (redrawGrid view cfg pts₂).cells (effectiveMax view cfg pts₂) :=
    funext fun k => by
      simp only [emitCell, redrawGrid_cells_perm view cfg h k,
        effectiveMax_perm view cfg h]
  rw [hemit]
  exact (redrawGrid_keys_perm view cfg h).filterMap _

/-- Witness for C6: swapping the two points of `ptsTwoCells` permutes the
blob list. -/
theorem redraw_order_irrelevant_witness :
    ([⟨0, 0, none⟩, ⟨40, 0, some 2⟩] : List HeatLatLng).Perm
        [⟨40, 0, some 2⟩, ⟨0, 0, none⟩] ∧
    (redrawBlobs view0 cfg0 [⟨0, 0, none⟩, ⟨40, 0, some 2⟩]).Perm
      (redrawBlobs view0 cfg0 [⟨40, 0, some 2⟩, ⟨0, 0, none⟩]) := by
  have hp : ([⟨0, 0, none⟩, ⟨40, 0, some 2⟩] : List HeatLatLng).Perm
      [⟨40, 0, some 2⟩, ⟨0, 0, none⟩] := List.Perm.swap ..
  exact ⟨hp, redraw_order_irrelevant view0 cfg0 _ _ hp⟩


/- ---------------------------------------------------------------------
   C5: attenuation cancels out in automatic mode
   --------------------------------------------------------------------- -/

theorem redrawFold_keys_congr (view : MapView) (cfgA cfgB : RenderCfg)
    (vA vB : ℚ) (hpb : paddedBounds view cfgA = paddedBounds view cfgB)
    (hck : cellKeyOf view cfgA = cellKeyOf view cfgB)
    (pts : List HeatLatLng) :
    ∀ stA stB : RedrawGrid, stA.keys = stB.keys →
      (pts.foldl (redrawStep view cfgA vA) stA).keys =
        (pts.foldl (redrawStep view cfgB vB) stB).keys := by
  induction pts with
  | nil => intro _ _ h; exact h
  | cons p ps ih =>
    intro stA stB h
    rw [List.foldl_cons, List.foldl_cons]
    apply ih
    by_cases hin : containsB (paddedBounds view cfgA) (toLatLng p) = true
    · have hinB : containsB (paddedBounds view cfgB) (toLatLng p) = true :=
        hpb ▸ hin
      simp only [redrawStep, hin, hinB, if_true]
      rw [h, congrFun hck p]
    · have hinB : ¬containsB (paddedBounds view cfgB) (toLatLng p) = true :=
        hpb ▸ hin
      rw [redrawStep, redrawStep, if_neg (by simp [hin]),
        if_neg (by simp [hinB])]
      exact h

theorem autoMaxFold_scale (q v : ℚ) (hq : 0 < q) (pts : List HeatLatLng) :
    ∀ acc, pts.foldl (autoMaxStep (q * v)) (q * acc) =
      q * pts.foldl (autoMaxStep v) acc := by
  induction pts with
  | nil => intro acc; rfl
  | cons p ps ih =>
    intro acc
    rw [List.foldl_cons, List.foldl_cons]
    have hstep : autoMaxStep (q * v) (q * acc) p = q * autoMaxStep v acc p := by
      unfold autoMaxStep
      have hiq : getIntensity p * (q * v) = q * (getIntensity p * v) := by ring
      rw [hiq]
      rcases lt_or_le acc (getIntensity p * v) with h | h
      · rw [if_pos ((mul_lt_mul_left hq).mpr h), if_pos h]
      · rw [if_neg (not_lt.mpr ((mul_le_mul_left hq).mpr h)),
          if_neg (not_lt.mpr h)]
    rw [hstep, ih]

theorem autoMax_scale (q v : ℚ) (hq : 0 < q) (pts : List HeatLatLng) :
    autoMax (q * v) pts = q * autoMax v pts := by
  rw [autoMax, autoMax, ← autoMaxFold_scale q v hq pts 0, mul_zero]

theorem contribSum_scale (view : MapView) (q : ℚ) (l : List HeatLatLng) :
    (l.map (contribOf view q)).foldr Cell.add Cell.zero =
      ⟨q * ((l.map (contribOf view 1)).foldr Cell.add Cell.zero).sx,
        q * ((l.map (contribOf view 1)).foldr Cell.add Cell.zero).sy,
        q * ((l.map (contribOf view 1)).foldr Cell.add Cell.zero).si,
        ((l.map (contribOf view 1)).foldr Cell.add Cell.zero).cnt⟩ := by
  induction l with
  | nil => simp [Cell.zero]
  | cons p ps ih =>
    rw [List.map_cons, List.map_cons, List.foldr_cons, List.foldr_cons, ih]
    simp only [contribOf, Cell.add, Cell.mk.injEq]
    refine ⟨by ring, by ring, by ring, trivial⟩

/-- C5: in automatic-maximum mode, attenuation cancels in the normalized
output.  With the same point set and viewport, a configuration whose
`maxZoom` sits two levels above the current zoom (`v = 1/4`) produces
exactly the same blob list as one whose `maxZoom` equals the current zoom
(`v = 1`): both every cell sum and the auto-computed maximum scale by
`1/4`, which cancels in the ratio — provided the scaled maximum stays
above the epsilon floor. -/
theorem redraw_auto_zoom_invariant (view : MapView) (cfg cfg2 : RenderCfg)
    (pts : List HeatLatLng)
    (hmax : cfg.max = none) (hmax2 : cfg2.max = none)
    (hrad : cfg2.radius = cfg.radius) (hblur : cfg2.blur = cfg.blur)
    (hmz : cfg.maxZoom = some view.zoom)
    (hmz2 : cfg2.maxZoom = some (view.zoom + 2))
    (hfloor : epsAuto ≤ autoMax (vOf view cfg2) pts) :
    redrawBlobs view cfg2 pts = redrawBlobs view cfg pts := by
  have hpb : paddedBounds view cfg2 = paddedBounds view cfg := by
    rw [paddedBounds, paddedBounds, hrad, hblur]
  have hck : cellKeyOf view cfg2 = cellKeyOf view cfg := by
    funext p
    rw [cellKeyOf, cellKeyOf, cellSizeOf, cellSizeOf, hrad]
  have hv1 : vOf view cfg = 1 := by
    rw [vOf, hmz]
    simp only [Option.getD_some]
    have h0 : (max 0 (min (view.zoom - view.zoom) 12)).toNat = 0 := by omega
    rw [zoomFactor, h0, pow_zero, one_div_one]
  have hv2 : vOf view cfg2 = 1 / 4 := by
    rw [vOf, hmz2]
    simp only [Option.getD_some]
    have h2 : (max 0 (min (view.zoom + 2 - view.zoom) 12)).toNat = 2 := by omega
    rw [zoomFactor, h2]
    norm_num
  have hA0 : 0 ≤ autoMax (vOf view cfg) pts := autoMax_fold_le _ pts 0
  have hscale : autoMax (vOf view cfg2) pts =
      (1 / 4) * autoMax (vOf view cfg) pts := by
    rw [hv1, hv2]
    have h14 := autoMax_scale (1 / 4) 1 (by norm_num) pts
    rwa [mul_one] at h14
  rw [hscale] at hfloor
  have heps1 : epsAuto ≤ autoMax (vOf view cfg) pts := by linarith
  have heffMax1 : effectiveMax view cfg pts = autoMax (vOf view cfg) pts := by
    rw [effectiveMax, hmax]
    exact max_eq_left heps1
  have heffMax2 : effectiveMax view cfg2 pts =
      (1 / 4) * autoMax (vOf view cfg) pts := by
    rw [effectiveMax, hmax2, hscale]
    exact max_eq_left hfloor
  rw [redrawBlobs, redrawBlobs]
  have hkeys : (redrawGrid view cfg2 pts).keys =
      (redrawGrid view cfg pts).keys := by
    rw [redrawGrid, redrawGrid]
    exact redrawFold_keys_congr view cfg2 cfg _ _ hpb hck pts _ _ rfl
  rw [hkeys]
  refine List.filterMap_congr (fun k _ => ?_)
  have hc2 : (redrawGrid view cfg2 pts).cells k =
      ⟨(1 / 4) * ((redrawGrid view cfg pts).cells k).sx,
        (1 / 4) * ((redrawGrid view cfg pts).cells k).sy,
        (1 / 4) * ((redrawGrid view cfg pts).cells k).si,
        ((redrawGrid view cfg pts).cells k).cnt⟩ := by
    rw [redrawGrid, redrawGrid, redrawFold_cells, redrawFold_cells,
      Cell.zero_add_left, Cell.zero_add_left, hpb, hck, hv1, hv2]
    exact contribSum_scale view (1 / 4) _
  simp only [emitCell, hc2, heffMax1, heffMax2]
  by_cases h0 : ((redrawGrid view cfg pts).cells k).si = 0
  · rw [h0, mul_zero]
    simp
  · have h0' : (1 / 4) * ((redrawGrid view cfg pts).cells k).si ≠ 0 :=
      mul_ne_zero (by norm_num) h0
    rw [if_neg h0', if_neg h0]
    congr 1
    refine Prod.ext ?_ (Prod.ext ?_ ?_)
    · exact mul_div_mul_left _ _ (by norm_num)
    · exact mul_div_mul_left _ _ (by norm_num)
    · exact mul_div_mul_left _ _ (by norm_num)

/-- Witness for C5: one default-intensity point, `maxZoom` 20 vs 18 at
zoom 18, gives identical blob lists. -/
theorem redraw_auto_zoom_invariant_witness :
    epsAuto ≤ autoMax (vOf view0 ⟨25, 15, some 20, none⟩) pts0 ∧
    redrawBlobs view0 (⟨25, 15, some 20, none⟩ : RenderCfg) pts0 =
      redrawBlobs view0 (⟨25, 15, some 18, none⟩ : RenderCfg) pts0 := by
  have hf : epsAuto ≤ autoMax (vOf view0 ⟨25, 15, some 20, none⟩) pts0 := by
    norm_num [autoMax, autoMaxStep, vOf, zoomFactor, view0, pts0,
      getIntensity, epsAuto, Int.toNat]
  exact ⟨hf,
    redraw_auto_zoom_invariant view0 ⟨25, 15, some 18, none⟩
      ⟨25, 15, some 20, none⟩ pts0 rfl rfl rfl rfl rfl rfl hf⟩

/- ---------------------------------------------------------------------
   C7: setOptions round-trip and partial-update merge
   --------------------------------------------------------------------- -/

/-- The update `{radius: 30, blur: 10}` (all other keys absent). -/
def upd30 : HeatLayerOptionsO :=
  ⟨some 30, some 10, none, none, none, none, none⟩

/-- A layer state with default options and a fresh renderer. -/
def st0 : HeatLayerState :=
  ⟨⟨some 25, some 15, some (1 / 20), none, none, none, none⟩,
    ⟨25, 15, 1 / 20, [], false, false⟩⟩

/-- C7: `setOptions({radius: 30, blur: 10})` makes the renderer's radius
and blur read back exactly 30 and 10 (and records them in the layer
options), while every option field not mentioned in a partial update
keeps its prior value. -/
theorem setOptions_roundtrip_spec :
    (∀ st : HeatLayerState,
      (setOptions st upd30).renderer.radius = 30 ∧
      (setOptions st upd30).renderer.blur = 10 ∧
      (setOptions st upd30).options.radius = some 30 ∧
      (setOptions st upd30).options.blur = some 10) ∧
    (∀ old upd : HeatLayerOptionsO,
      (upd.radius = none → (mergeOptions old upd).radius = old.radius) ∧
      (upd.blur = none → (mergeOptions old upd).blur = old.blur) ∧
      (upd.minOpacity = none →
        (mergeOptions old upd).minOpacity = old.minOpacity) ∧
      (upd.maxZoom = none → (mergeOptions old upd).maxZoom = old.maxZoom) ∧
      (upd.max = none → (mergeOptions old upd).max = old.max) ∧
      (upd.gradient = none → (mergeOptions old upd).gradient = old.gradient) ∧
      (upd.zoomCrossfadeDuration = none →
        (mergeOptions old upd).zoomCrossfadeDuration =
          old.zoomCrossfadeDuration)) := by
  constructor
  · intro st
    refine ⟨?_, ?_, rfl, rfl⟩ <;>
      · simp only [setOptions, mergeOptions, upd30, assignField,
          rendererSetOptions, Option.isSome_some, Bool.true_or, if_true]
        split <;> split <;> rfl
  · intro old upd
    refine ⟨?_, ?_, ?_, ?_, ?_, ?_, ?_⟩ <;>
      · intro h
        simp only [mergeOptions, h, assignField]

/-- Witness for C7 at the default layer state. -/
theorem setOptions_roundtrip_spec_witness :
    (setOptions st0 upd30).renderer.radius = 30 ∧
    (setOptions st0 upd30).renderer.blur = 10 ∧
    (setOptions st0 upd30).options.minOpacity = st0.options.minOpacity :=
  ⟨(setOptions_roundtrip_spec.1 st0).1, (setOptions_roundtrip_spec.1 st0).2.1,
    (setOptions_roundtrip_spec.2 st0.options upd30).2.2.1 rfl⟩

/- ---------------------------------------------------------------------
   C8: the recolor pass
   --------------------------------------------------------------------- -/

theorem colorize_quad (palette : ℕ → ℕ × ℕ × ℕ) (r g b a : ℕ)
    (rest : List ℕ) :
    colorize palette (r :: g :: b :: a :: rest) =
      (if a = 0 then [r, g, b, a]
       else [(palette a).1, (palette a).2.1, (palette a).2.2, a]) ++
        colorize palette rest := by
  by_cases h : a = 0 <;> simp [colorize, h]

theorem colorize_length (palette : ℕ → ℕ × ℕ × ℕ) :
    ∀ ps : List ℕ, (colorize palette ps).length = ps.length
  | [] => rfl
  | [_] => rfl
  | [_, _] => rfl
  | [_, _, _] => rfl
  | r :: g :: b :: a :: rest => by
    rw [colorize_quad]
    by_cases h : a = 0 <;>
      simp [h, colorize_length palette rest]

theorem colorize_drop_aux (palette : ℕ → ℕ × ℕ × ℕ) :
    ∀ (k : ℕ) (ps : List ℕ) (r g b a : ℕ) (rest : List ℕ),
      ps.drop (4 * k) = r :: g :: b :: a :: rest →
      (colorize palette ps).drop (4 * k) =
        (if a = 0 then [r, g, b, a]
         else [(palette a).1, (palette a).2.1, (palette a).2.2, a]) ++
          colorize palette rest := by
  intro k
  induction k with
  | zero =>
    intro ps r g b a rest h
    rw [Nat.mul_zero, List.drop_zero] at h ⊢
    rw [h, colorize_quad]
  | succ k ih =>
    intro ps r g b a rest h
    match ps with
    | [] => rw [List.drop_nil] at h; cases h
    | [x1] =>
      rw [List.drop_eq_nil_of_le (by simp; omega)] at h; cases h
    | [x1, x2] =>
      rw [List.drop_eq_nil_of_le (by simp; omega)] at h; cases h
    | [x1, x2, x3] =>
      rw [List.drop_eq_nil_of_le (by simp; omega)] at h; cases h
    | x1 :: x2 :: x3 :: x4 :: tl =>
      have h4 : 4 * (k + 1) = 4 * k + 4 := by ring
      have hps : (x1 :: x2 :: x3 :: x4 :: tl).drop (4 * (k + 1)) =
          tl.drop (4 * k) := by
        rw [h4, Nat.add_comm, ← List.drop_drop]
        rfl
      rw [hps] at h
      have hcol : colorize palette (x1 :: x2 :: x3 :: x4 :: tl) =
          (if x4 = 0 then [x1, x2, x3, x4]
           else [(palette x4).1, (palette x4).2.1, (palette x4).2.2, x4]) ++
            colorize palette tl := colorize_quad palette x1 x2 x3 x4 tl
      rw [hcol]
      have hq : ((if x4 = 0 then [x1, x2, x3, x4]
          else [(palette x4).1, (palette x4).2.1, (palette x4).2.2, x4]) ++
            colorize palette tl).drop (4 * (k + 1)) =
          (colorize palette tl).drop (4 * k) := by
        rw [h4, Nat.add_comm, ← List.drop_drop]
        by_cases hx : x4 = 0
        · rw [if_pos hx]
          rfl
        · rw [if_neg hx]
          rfl
      rw [hq]
      exact ih tl r g b a rest h

/-- C8: the recolor pass preserves the buffer length, leaves every pixel
whose alpha byte is zero entirely unchanged, and for every pixel with
nonzero alpha overwrites its red/green/blue bytes with the palette entry
indexed by that alpha value while keeping the alpha byte itself. -/
theorem colorize_pixels_spec (palette : ℕ → ℕ × ℕ × ℕ) (ps : List ℕ)
    (k : ℕ) (r g b a : ℕ) (rest : List ℕ)
    (h : ps.drop (4 * k) = r :: g :: b :: a :: rest) :
    (colorize palette ps).length = ps.length ∧
    (colorize palette ps).drop (4 * k) =
      (if a = 0 then [r, g, b, a]
       else [(palette a).1, (palette a).2.1, (palette a).2.2, a]) ++
        colorize palette rest :=
  ⟨colorize_length palette ps, colorize_drop_aux palette k ps r g b a rest h⟩

/-- Witness for C8: an 8-byte buffer with one transparent pixel and one
pixel of alpha 9 recolored through the palette `n ↦ (n, n+1, n+2)`. -/
theorem colorize_pixels_spec_witness :
    ([5, 6, 7, 0, 1, 2, 3, 9] : List ℕ).drop (4 * 1) = [1, 2, 3, 9] ∧
    (colorize (fun n => (n, n + 1, n + 2)) [5, 6, 7, 0, 1, 2, 3, 9]).length =
      8 ∧
    (colorize (fun n => (n, n + 1, n + 2)) [5, 6, 7, 0, 1, 2, 3, 9]).drop
      (4 * 1) = [9, 10, 11, 9] := by
  have h : ([5, 6, 7, 0, 1, 2, 3, 9] : List ℕ).drop (4 * 1) = [1, 2, 3, 9] :=
    rfl
  have hs := colorize_pixels_spec (fun n => (n, n + 1, n + 2))
    [5, 6, 7, 0, 1, 2, 3, 9] 1 1 2 3 9 [] h
  refine ⟨h, hs.1, ?_⟩
  rw [hs.2]
  norm_num [colorize]

/- ---------------------------------------------------------------------
   C9: empty point set
   --------------------------------------------------------------------- -/

/-- C9: a point set of size 0 yields an empty blob list; the Painter's
`draw`, given an empty blob list, clears the raster and returns without
stamping or recoloring; and `getBounds` returns the invalid/empty
region. -/
theorem empty_pointset_spec (view : MapView) (cfg : RenderCfg)
    (rs : HeatRendererState) :
    redrawBlobs view cfg [] = [] ∧
    draw rs [] = ⟨true, [], false⟩ ∧
    getBounds [] = none :=
  ⟨rfl, rfl, rfl⟩
